import Mathlib

/-!
# Verification of the network_week_8 subnet engine

Shallow embedding of `src/core/utils.py` (the address codec and subnet
engine of the repository).  Python strings are modelled as `List Char`;
Python's fallible `int(...)` conversions are modelled with `Option`, so a
function that can raise `ValueError` returns `Option _` and the raising
run is `none`.
-/

set_option maxRecDepth 10000

/-! ## Model of the Python primitives used by the source -/

/-- Code points CPython's `int(str)` strips as whitespace around a
numeral: tab through carriage return, space, next line, no-break space,
ogham space mark, the U+2000-U+200A spaces, line separator, paragraph
separator, narrow no-break space, medium mathematical space and
ideographic space. -/
def pyWsNat (n : Nat) : Bool :=
  (decide (9 <= n) && decide (n <= 13)) || n == 32 || n == 133 || n == 160 || n == 5760 ||
    (decide (8192 <= n) && decide (n <= 8202)) || n == 8232 || n == 8233 || n == 8239 ||
    n == 8287 || n == 12288

/-- Whitespace test on characters, as stripped by Python's `int(str)`. -/
def pyWs (c : Char) : Bool := pyWsNat c.toNat

/-- Whitespace stripping from both ends, as `int(str)` performs before
parsing. -/
def stripList (l : List Char) : List Char :=
  ((l.dropWhile pyWs).reverse.dropWhile pyWs).reverse

/-- First code points of the 66 aligned runs of ten consecutive Unicode
decimal digits (category Nd).  Python's `int` accepts exactly these
digits, each with value code point minus run start. -/
def ndStarts : List Nat := [
  48, 1632, 1776, 1984, 2406, 2534, 2662, 2790, 2918, 3046,
  3174, 3302, 3430, 3558, 3664, 3792, 3872, 4160, 4240, 6112,
  6160, 6470, 6608, 6784, 6800, 6992, 7088, 7232, 7248, 42528,
  43216, 43264, 43472, 43504, 43600, 44016, 65296, 66720, 68912, 69734,
  69872, 69942, 70096, 70384, 70736, 70864, 71248, 71360, 71472, 71904,
  72016, 72784, 73040, 73120, 92768, 92864, 93008, 120782, 120792, 120802,
  120812, 120822, 123200, 123632, 125264, 130032]

/-- Unicode decimal digit test, matching the digits Python's `int`
parses. -/
def isDig (c : Char) : Bool :=
  ndStarts.any (fun s => decide (s <= c.toNat) && decide (c.toNat <= s + 9))

/-- Value of a Unicode decimal digit: code point minus the start of its
run of ten. -/
def digVal (c : Char) : Nat :=
  match ndStarts.find? (fun s => decide (s <= c.toNat) && decide (c.toNat <= s + 9)) with
  | some s => c.toNat - s
  | none => 0

/-- Plain ASCII decimal digit test, for the spec-side strict predicate
of claim C1. -/
def isAsciiDig (c : Char) : Bool := decide (48 <= c.toNat) && decide (c.toNat <= 57)

/-- Binary digit test, for Python's `int(s, 2)`. -/
def isBinDig (c : Char) : Bool := c == '0' || c == '1'

/-- Value of a binary digit. -/
def binDigVal (c : Char) : Nat := if c == '1' then 1 else 0

/-- Digit-sequence parser underlying Python's `int(str, base)`: after the
first digit, digits may be separated by single underscores (no leading,
trailing or doubled underscore). `acc` is the value accumulated so far. -/
def pyDigitsGo (isD : Char → Bool) (dv : Char → Nat) (base : Nat) :
    List Char → Nat → Option Nat
  | [], acc => some acc
  | [c], acc => if isD c then some (base * acc + dv c) else none
  | c :: d :: r, acc =>
    if isD c then pyDigitsGo isD dv base (d :: r) (base * acc + dv c)
    else if c == '_' then
      if isD d then pyDigitsGo isD dv base r (base * acc + dv d) else none
    else none

/-- Unsigned digit string: at least one digit, then `pyDigitsGo`. -/
def parseUD (isD : Char → Bool) (dv : Char → Nat) (base : Nat) (l : List Char) : Option Nat :=
  match l with
  | [] => none
  | c :: r => if isD c then pyDigitsGo isD dv base r (dv c) else none

/-- Model of Python `int(s)`: strip the whitespace of `pyWs` from both
ends, optional single `+`/`-` sign, then an underscore-grouped sequence
of Unicode decimal digits. -/
def pyInt? (l : List Char) : Option Int :=
  match stripList l with
  | [] => none
  | c :: r =>
    if c == '+' then (parseUD isDig digVal 10 r).map (fun n : Nat => (n : Int))
    else if c == '-' then (parseUD isDig digVal 10 r).map (fun n : Nat => -(n : Int))
    else (parseUD isDig digVal 10 (c :: r)).map (fun n : Nat => (n : Int))

/-- Binary digit string with Python's optional `0b`/`0B` prefix (an
underscore may follow the prefix), used by `int(s, 2)`. -/
def parseBin (l : List Char) : Option Nat :=
  match l with
  | c :: d :: r =>
    if c == '0' && (d == 'b' || d == 'B') then
      match r with
      | [] => none
      | e :: r2 =>
        if e == '_' then parseUD isBinDig binDigVal 2 r2
        else parseUD isBinDig binDigVal 2 r
    else parseUD isBinDig binDigVal 2 (c :: d :: r)
  | _ => parseUD isBinDig binDigVal 2 l

/-- Model of Python `int(s, 2)`. -/
def pyInt2? (l : List Char) : Option Int :=
  match stripList l with
  | [] => none
  | c :: r =>
    if c == '+' then (parseBin r).map (fun n : Nat => (n : Int))
    else if c == '-' then (parseBin r).map (fun n : Nat => -(n : Int))
    else (parseBin (c :: r)).map (fun n : Nat => (n : Int))

/-- Fuel-driven binary digit list of a natural number (most significant
digit first, empty for 0); fuel `f ≥ n` suffices. -/
def natBinF : Nat → Nat → List Char
  | 0, _ => []
  | f + 1, n => if n = 0 then [] else natBinF f (n / 2) ++ [if n % 2 = 1 then '1' else '0']

/-- Binary digit list of a natural number (empty for 0). -/
def natBin (n : Nat) : List Char := natBinF n n

/-- Binary rendering of a natural number, `['0']` for 0 (as Python's
`format(n, 'b')`). -/
def natBinRepr (n : Nat) : List Char := if n = 0 then ['0'] else natBin n

/-- Fuel-driven decimal digit list of a natural number. -/
def natDecF : Nat → Nat → List Char
  | 0, _ => []
  | f + 1, n => if n = 0 then [] else natDecF f (n / 10) ++ [Char.ofNat (48 + n % 10)]

/-- Decimal digit list of a natural number (empty for 0). -/
def natDec (n : Nat) : List Char := natDecF n n

/-- Decimal rendering of a natural number, `['0']` for 0 (as Python `str`). -/
def natDecRepr (n : Nat) : List Char := if n = 0 then ['0'] else natDec n

/-- Model of Python `format(i, '08b')` generalised to width `w`:
binary rendering zero-padded to a minimum total width `w`, sign first. -/
def pyFormatB (w : Nat) (i : Int) : List Char :=
  if i < 0 then '-' :: (List.replicate (w - 1 - (natBinRepr i.natAbs).length) '0' ++ natBinRepr i.natAbs)
  else List.replicate (w - (natBinRepr i.toNat).length) '0' ++ natBinRepr i.toNat

/-- Model of Python `str(i)` for an integer. -/
def pyStrInt (i : Int) : List Char :=
  if i < 0 then '-' :: natDecRepr i.natAbs else natDecRepr i.toNat

/-- The 8-character block `format(n, '08b')` produces for an octet value. -/
def block8 (n : Nat) : List Char :=
  List.replicate (8 - (natBinRepr n).length) '0' ++ natBinRepr n

/-- Model of Python `s.split(sep)` for a one-character separator:
keeps empty pieces, `[[]]` on the empty string. -/
def splitOnChar (sep : Char) : List Char → List (List Char)
  | [] => [[]]
  | c :: r =>
    if c == sep then [] :: splitOnChar sep r
    else
      match splitOnChar sep r with
      | [] => [[c]]
      | p :: ps => (c :: p) :: ps

/-- Value of a binary digit string (`foldl`, most significant first). -/
def binVal (l : List Char) : Nat := l.foldl (fun a c => 2 * a + binDigVal c) 0

/-- Value of a decimal digit string (`foldl`, most significant first). -/
def decVal (l : List Char) : Nat := l.foldl (fun a c => 10 * a + digVal c) 0

/-! ## Embedding of `src/core/utils.py` -/

/-- One octet of `validate_ip`'s loop body: `int(part)` must succeed and
the value must not be `< 0` or `> 255`. -/
def octetOk (p : List Char) : Bool :=
  match pyInt? p with
  | some v => if v < 0 || 255 < v then false else true
  | none => false

/-- `validate_ip(ip_str)` from `src/core/utils.py`: split on `'.'`,
require exactly 4 parts, each an `int(...)` in `[0, 255]`. -/
def validate_ip (s : List Char) : Bool :=
  if (splitOnChar '.' s).length ≠ 4 then false
  else (splitOnChar '.' s).all octetOk

/-- The join in `ip_to_binary`: `''.join(format(int(octet), '08b') for
octet in octets)`; a failing `int` makes the whole call raise (`none`). -/
def octsToBits : List (List Char) → Option (List Char)
  | [] => some []
  | p :: ps =>
    match pyInt? p, octsToBits ps with
    | some v, some rest => some (pyFormatB 8 v ++ rest)
    | _, _ => none

/-- `ip_to_binary(ip_str)` from `src/core/utils.py`. -/
def ip_to_binary (s : List Char) : Option (List Char) :=
  octsToBits (splitOnChar '.' s)

/-- `binary_to_ip(binary_str)` from `src/core/utils.py`: the four slices
`binary_str[0:8] .. binary_str[24:32]` through `int(_, 2)` and `str`,
joined with `'.'`. -/
def binary_to_ip (b : List Char) : Option (List Char) :=
  match pyInt2? (b.take 8), pyInt2? ((b.drop 8).take 8),
      pyInt2? ((b.drop 16).take 8), pyInt2? ((b.drop 24).take 8) with
  | some v1, some v2, some v3, some v4 =>
    some (pyStrInt v1 ++ ('.' :: (pyStrInt v2 ++ ('.' :: (pyStrInt v3 ++ ('.' :: pyStrInt v4))))))
  | _, _, _, _ => none

/-- The contiguity loop of `validate_subnet_mask`: `found_zero` starts
false; a `'0'` sets it; a `'1'` seen after it returns `False`. -/
def maskScan : List Char → Bool → Bool
  | [], _ => true
  | c :: r, foundZero =>
    if c == '0' then maskScan r true
    else if foundZero && c == '1' then false
    else maskScan r foundZero

/-- `validate_subnet_mask(mask_str)` from `src/core/utils.py`.  After
`validate_ip` has succeeded `ip_to_binary` cannot fail, so the `none`
branch is unreachable. -/
def validate_subnet_mask (m : List Char) : Bool :=
  if !validate_ip m then false
  else
    match ip_to_binary m with
    | some b => maskScan b false
    | none => false

/-- The AND comprehension of `get_network_address` (`'1' if
ip_binary[i] == '1' and mask_binary[i] == '1' else '0'` for `i` in
`range(32)`); indexing is total via `getD`, in range for the validated
32-character strings the source applies it to. -/
def andBits32 (ib mb : List Char) : List Char :=
  (List.range 32).map (fun i => if ib.getD i ' ' == '1' && mb.getD i ' ' == '1' then '1' else '0')

/-- `get_network_address(ip_str, mask_str)` from `src/core/utils.py`. -/
def get_network_address (ip m : List Char) : Option (List Char) :=
  match ip_to_binary ip, ip_to_binary m with
  | some ib, some mb => binary_to_ip (andBits32 ib mb)
  | _, _ => none

/-- The comprehension of `get_broadcast_address` (`'1' if
mask_binary[i] == '0' else network_binary[i]`). -/
def orNotBits32 (nb mb : List Char) : List Char :=
  (List.range 32).map (fun i => if mb.getD i ' ' == '0' then '1' else nb.getD i ' ')

/-- `get_broadcast_address(ip_str, mask_str)` from `src/core/utils.py`. -/
def get_broadcast_address (ip m : List Char) : Option (List Char) :=
  match get_network_address ip m with
  | some na =>
    match ip_to_binary na, ip_to_binary m with
    | some nb, some mb => binary_to_ip (orNotBits32 nb mb)
    | _, _ => none
  | none => none

/-- `calculate_number_of_hosts(mask_str)` from `src/core/utils.py`. -/
def calculate_number_of_hosts (m : List Char) : Option Nat :=
  match ip_to_binary m with
  | some b => some (if b.count '0' = 0 then 0 else 2 ^ (b.count '0') - 2)
  | none => none

/-- `get_cidr_notation(mask_str)` from `src/core/utils.py` (the Lean name
is shortened): count of `'1'` characters in the binary mask. -/
def get_cidr (m : List Char) : Option Nat :=
  match ip_to_binary m with
  | some b => some (b.count '1')
  | none => none

/-- The three address classes the source distinguishes ('A', 'B', 'C'). -/
inductive IpClass
  | A
  | B
  | C
deriving DecidableEq

/-- The class letter, for the `f'Class {ip_class}'` label. -/
def classChar : IpClass → Char
  | .A => 'A'
  | .B => 'B'
  | .C => 'C'

/-- `get_ip_class(ip_str)` from `src/core/utils.py`: the decimal value of
the first `'.'`-separated part decides the class; the source returns the
Python value `None` outside the three ranges (inner `none`), and raises
if `int` fails (outer `none`).  `split` never returns an empty list, so
`headD` is exact. -/
def get_ip_class (s : List Char) : Option (Option IpClass) :=
  match pyInt? ((splitOnChar '.' s).headD []) with
  | some v =>
    some (if 1 ≤ v ∧ v ≤ 126 then some IpClass.A
      else if 128 ≤ v ∧ v ≤ 191 then some IpClass.B
      else if 192 ≤ v ∧ v ≤ 223 then some IpClass.C
      else none)
  | none => none

/-- `get_default_mask_cidr(ip_class)` from `src/core/utils.py`. -/
def get_default_mask_cidr : Option IpClass → Option Nat
  | some .A => some 8
  | some .B => some 16
  | some .C => some 24
  | none => none

/-- `is_classful(ip_str, mask_str)` from `src/core/utils.py`.  The
`cidr == default_cidr` comparison is between the `Option`-valued default
and the integer CIDR, exactly as the Python `==`. -/
def is_classful (ip m : List Char) : Option (Bool × List Char) :=
  match get_ip_class ip with
  | none => none
  | some none => some (false, "Classless".toList)
  | some (some c) =>
    match get_cidr m with
    | none => none
    | some k =>
      if (some k : Option Nat) = get_default_mask_cidr (some c)
      then some (true, "Class ".toList ++ [classChar c])
      else some (false, "Classless".toList)

/-! ## Derived notions used to state the claims -/

/-- Bit `i` of an optional binary string (for stating bitwise claims). -/
def bitAt (o : Option (List Char)) (i : Nat) : Option Char :=
  o.map (fun b => b.getD i ' ')

/-- Canonical dotted-decimal rendering of four octet values: the spec's
`IPv4Address` display form. -/
def ipStr (a b c d : Nat) : List Char :=
  natDecRepr a ++ ('.' :: (natDecRepr b ++ ('.' :: (natDecRepr c ++ ('.' :: natDecRepr d)))))

/-- The validity predicate exactly as claim C1 words it (spec side, for
refinement comparison): exactly 4 parts, each a nonempty string of plain
decimal digits — no other characters, no whitespace — with value ≤ 255. -/
def specStrictValid (s : List Char) : Bool :=
  decide ((splitOnChar '.' s).length = 4) &&
    (splitOnChar '.' s).all (fun p => !p.isEmpty && p.all isAsciiDig && decide (decVal p ≤ 255))

/-- Declarative grammar of the tail of a Python digit sequence: digits
with single underscores strictly between digits. -/
def grammarTail : List Char → Bool
  | [] => true
  | [c] => isDig c
  | c :: d :: r =>
    if isDig c then grammarTail (d :: r)
    else if c == '_' then isDig d && grammarTail r
    else false

/-- Declarative grammar of a full Python digit sequence. -/
def grammarOk : List Char → Bool
  | [] => false
  | c :: r => isDig c && grammarTail r

/-- Value of an underscore-grouped digit sequence: drop the underscores
and read the decimal digits. -/
def uVal (l : List Char) : Nat :=
  decVal (l.filter (fun c => !(c == '_')))

/-- Declarative acceptance of one octet under Python `int` semantics:
after stripping the whitespace `int` strips, an optional sign followed
by an underscore-grouped sequence of Unicode decimal digits; value in
`[0, 255]` (negative values are only accepted as `-0`). -/
def okPartB (p : List Char) : Bool :=
  match stripList p with
  | [] => false
  | c :: r =>
    if c == '+' then grammarOk r && decide (uVal r ≤ 255)
    else if c == '-' then grammarOk r && decide (uVal r = 0)
    else grammarOk (c :: r) && decide (uVal (c :: r) ≤ 255)

/-- Declarative characterization of what `validate_ip` accepts (the
amended form of claim C1). -/
def pyAcceptSpec (s : List Char) : Bool :=
  decide ((splitOnChar '.' s).length = 4) && (splitOnChar '.' s).all okPartB

/-- The classification table exactly as the spec words it (spec side,
for refinement comparison): first octet 1–126 → A, 128–191 → B,
192–223 → C, anything else unclassified. -/
def specClassOfFirstOctet (v : Int) : Option IpClass :=
  if 1 ≤ v ∧ v ≤ 126 then some IpClass.A
  else if 128 ≤ v ∧ v ≤ 191 then some IpClass.B
  else if 192 ≤ v ∧ v ≤ 223 then some IpClass.C
  else none

/-! ## Character lemmas -/

theorem isBinDig_iff {c : Char} : isBinDig c = true ↔ c = '0' ∨ c = '1' := by
  simp [isBinDig]

theorem isDig_elim {c : Char} (h : isDig c = true) :
    ∃ s ∈ ndStarts, ∃ k, k < 10 ∧ c.toNat = s + k := by
  simp only [isDig, List.any_eq_true, Bool.and_eq_true, decide_eq_true_eq] at h
  obtain ⟨s, hs, h1, h2⟩ := h
  exact ⟨s, hs, c.toNat - s, by omega, by omega⟩

theorem digitRun_check (p : Nat → Bool)
    (hall : ndStarts.all (fun s => (List.range 10).all (fun k => p (s + k))) = true)
    {c : Char} (h : isDig c = true) : p c.toNat = true := by
  obtain ⟨s, hs, k, hk, he⟩ := isDig_elim h
  have h1 := List.all_eq_true.mp hall s hs
  have h2 := List.all_eq_true.mp h1 k (List.mem_range.mpr hk)
  rw [he]
  exact h2

theorem isDig_not_special {c : Char} (h : isDig c = true) :
    pyWs c = false ∧ (c == '.') = false ∧ (c == '+') = false ∧ (c == '-') = false ∧
      (c == '_') = false := by
  have hws : (!pyWsNat c.toNat) = true :=
    digitRun_check (fun n => !pyWsNat n) (by decide) h
  rw [Bool.not_eq_true'] at hws
  have h46 : (decide (c.toNat ≠ 46)) = true :=
    digitRun_check (fun n => decide (n ≠ 46)) (by decide) h
  have h43 : (decide (c.toNat ≠ 43)) = true :=
    digitRun_check (fun n => decide (n ≠ 43)) (by decide) h
  have h45 : (decide (c.toNat ≠ 45)) = true :=
    digitRun_check (fun n => decide (n ≠ 45)) (by decide) h
  have h95 : (decide (c.toNat ≠ 95)) = true :=
    digitRun_check (fun n => decide (n ≠ 95)) (by decide) h
  rw [decide_eq_true_eq] at h46 h43 h45 h95
  refine ⟨hws, ?_, ?_, ?_, ?_⟩
  · by_contra hb; rw [Bool.not_eq_false, beq_iff_eq] at hb; subst hb
    exact h46 (by decide)
  · by_contra hb; rw [Bool.not_eq_false, beq_iff_eq] at hb; subst hb
    exact h43 (by decide)
  · by_contra hb; rw [Bool.not_eq_false, beq_iff_eq] at hb; subst hb
    exact h45 (by decide)
  · by_contra hb; rw [Bool.not_eq_false, beq_iff_eq] at hb; subst hb
    exact h95 (by decide)

theorem binDig_not_special {c : Char} (h : c = '0' ∨ c = '1') :
    pyWs c = false ∧ (c == '+') = false ∧ (c == '-') = false ∧
      (c == 'b') = false ∧ (c == 'B') = false := by
  rcases h with rfl | rfl <;> exact ⟨by decide, by decide, by decide, by decide, by decide⟩

theorem decChar_isDig {d : Nat} (h : d < 10) : isDig (Char.ofNat (48 + d)) = true := by
  interval_cases d <;> decide

theorem decChar_val {d : Nat} (h : d < 10) : digVal (Char.ofNat (48 + d)) = d := by
  interval_cases d <;> decide

/-! ## Whitespace stripping -/

theorem dropWhile_of_none {p : Char → Bool} {l : List Char} (h : ∀ c ∈ l, p c = false) :
    l.dropWhile p = l := by
  cases l with
  | nil => rfl
  | cons c r => simp [List.dropWhile_cons, h c (by simp)]

theorem stripList_of_none {l : List Char} (h : ∀ c ∈ l, pyWs c = false) : stripList l = l := by
  unfold stripList
  rw [dropWhile_of_none h, dropWhile_of_none (by intro c hc; exact h c (by simpa using hc)),
    List.reverse_reverse]

/-! ## Digit-string values -/

theorem foldl_base_acc (base : Nat) (dv : Char → Nat) (l : List Char) :
    ∀ a : Nat, l.foldl (fun x c => base * x + dv c) a
      = a * base ^ l.length + l.foldl (fun x c => base * x + dv c) 0 := by
  induction l with
  | nil => intro a; simp
  | cons c r ih =>
    intro a
    simp only [List.foldl_cons, List.length_cons]
    rw [ih (base * a + dv c), ih (base * 0 + dv c), pow_succ]
    ring

theorem binVal_cons (c : Char) (r : List Char) :
    binVal (c :: r) = binDigVal c * 2 ^ r.length + binVal r := by
  unfold binVal
  simp only [List.foldl_cons]
  rw [foldl_base_acc 2 binDigVal r (2 * 0 + binDigVal c)]
  ring

theorem binVal_append (l1 l2 : List Char) :
    binVal (l1 ++ l2) = binVal l1 * 2 ^ l2.length + binVal l2 := by
  unfold binVal
  rw [List.foldl_append, foldl_base_acc 2 binDigVal l2]

theorem binVal_concat (l : List Char) (c : Char) :
    binVal (l ++ [c]) = 2 * binVal l + binDigVal c := by
  have h := binVal_append l [c]
  have h1 : binVal [c] = binDigVal c := by unfold binVal; simp
  simp only [List.length_cons, List.length_nil, Nat.zero_add, pow_one, h1] at h
  rw [h]; ring

theorem decVal_append (l1 l2 : List Char) :
    decVal (l1 ++ l2) = decVal l1 * 10 ^ l2.length + decVal l2 := by
  unfold decVal
  rw [List.foldl_append, foldl_base_acc 10 digVal l2]

theorem decVal_concat (l : List Char) (c : Char) :
    decVal (l ++ [c]) = 10 * decVal l + digVal c := by
  have h := decVal_append l [c]
  have h1 : decVal [c] = digVal c := by unfold decVal; simp
  simp only [List.length_cons, List.length_nil, Nat.zero_add, pow_one, h1] at h
  rw [h]; ring

theorem binDigVal_le (c : Char) : binDigVal c ≤ 1 := by
  unfold binDigVal; split <;> simp

theorem binVal_lt (l : List Char) : binVal l < 2 ^ l.length := by
  induction l with
  | nil => simp [binVal]
  | cons c r ih =>
    rw [binVal_cons]
    have h1 := binDigVal_le c
    have h2 : (2:Nat) ^ (r.length + 1) = 2 ^ r.length * 2 := pow_succ 2 r.length
    simp only [List.length_cons, h2]
    nlinarith

theorem binVal_replicate_zero (k : Nat) (l : List Char) :
    binVal (List.replicate k '0' ++ l) = binVal l := by
  rw [binVal_append]
  have h0 : binVal (List.replicate k '0') = 0 := by
    induction k with
    | zero => rfl
    | succ n ih =>
      rw [List.replicate_succ, binVal_cons, ih]
      have hz : binDigVal '0' = 0 := by decide
      rw [hz]; ring
  rw [h0]; ring

/-! ## Binary and decimal renderings -/

theorem natBinF_zero (f : Nat) : natBinF f 0 = [] := by cases f <;> simp [natBinF]

theorem natBinF_congr : ∀ f1 f2 n : Nat, n ≤ f1 → n ≤ f2 → natBinF f1 n = natBinF f2 n := by
  intro f1
  induction f1 with
  | zero =>
    intro f2 n h1 _
    have hn : n = 0 := by omega
    subst hn
    rw [natBinF_zero, natBinF_zero]
  | succ f ih =>
    intro f2 n h1 h2
    by_cases hn : n = 0
    · subst hn; rw [natBinF_zero, natBinF_zero]
    · cases f2 with
      | zero => omega
      | succ g =>
        simp only [natBinF, if_neg hn]
        rw [ih g (n / 2) (by omega) (by omega)]

theorem natBin_eq (n : Nat) :
    natBin n = if n = 0 then [] else natBin (n / 2) ++ [if n % 2 = 1 then '1' else '0'] := by
  by_cases hn : n = 0
  · subst hn; simp [natBin, natBinF]
  · rw [if_neg hn]
    cases n with
    | zero => exact absurd rfl hn
    | succ m =>
      show natBinF (m + 1) (m + 1) = _
      simp only [natBinF, if_neg hn]
      rw [natBinF_congr m ((m + 1) / 2) ((m + 1) / 2) (by omega) le_rfl]
      rfl

theorem binVal_natBinF : ∀ f n : Nat, n ≤ f → binVal (natBinF f n) = n := by
  intro f
  induction f with
  | zero =>
    intro n h
    have hn : n = 0 := by omega
    subst hn; rw [natBinF_zero]; rfl
  | succ f ih =>
    intro n h
    by_cases hn : n = 0
    · subst hn; rw [natBinF_zero]; rfl
    · simp only [natBinF, if_neg hn]
      rw [binVal_concat, ih (n / 2) (by omega)]
      have : binDigVal (if n % 2 = 1 then '1' else '0') = n % 2 := by
        rcases Nat.mod_two_eq_zero_or_one n with h2 | h2 <;> simp [h2, binDigVal]
      rw [this]; omega

theorem binVal_natBin (n : Nat) : binVal (natBin n) = n := binVal_natBinF n n le_rfl

theorem natBinF_mem : ∀ f n c, c ∈ natBinF f n → c = '0' ∨ c = '1' := by
  intro f
  induction f with
  | zero => intro n c h; simp [natBinF] at h
  | succ f ih =>
    intro n c h
    by_cases hn : n = 0
    · subst hn; rw [natBinF_zero] at h; simp at h
    · simp only [natBinF, if_neg hn, List.mem_append, List.mem_singleton] at h
      rcases h with h | h
      · exact ih _ _ h
      · subst h; split <;> simp

theorem natBin_mem {n : Nat} {c : Char} (h : c ∈ natBin n) : c = '0' ∨ c = '1' :=
  natBinF_mem n n c h

theorem natBinF_len : ∀ f n k : Nat, n ≤ f → n < 2 ^ k → (natBinF f n).length ≤ k := by
  intro f
  induction f with
  | zero =>
    intro n k h1 _
    have hn : n = 0 := by omega
    subst hn; simp [natBinF_zero]
  | succ f ih =>
    intro n k h1 h2
    by_cases hn : n = 0
    · subst hn; simp [natBinF_zero]
    · cases k with
      | zero => simp at h2; omega
      | succ k =>
        simp only [natBinF, if_neg hn, List.length_append, List.length_cons, List.length_nil]
        have hp : (2:Nat) ^ (k + 1) = 2 ^ k * 2 := pow_succ 2 k
        have hd : n / 2 < 2 ^ k := by omega
        have := ih (n / 2) k (by omega) hd
        omega

theorem natBin_len {n k : Nat} (h : n < 2 ^ k) : (natBin n).length ≤ k :=
  natBinF_len n n k le_rfl h

theorem natDecF_zero (f : Nat) : natDecF f 0 = [] := by cases f <;> simp [natDecF]

theorem decVal_natDecF : ∀ f n : Nat, n ≤ f → decVal (natDecF f n) = n := by
  intro f
  induction f with
  | zero =>
    intro n h
    have hn : n = 0 := by omega
    subst hn; rw [natDecF_zero]; rfl
  | succ f ih =>
    intro n h
    by_cases hn : n = 0
    · subst hn; rw [natDecF_zero]; rfl
    · simp only [natDecF, if_neg hn]
      rw [decVal_concat, ih (n / 10) (by omega), decChar_val (by omega)]
      omega

theorem decVal_natDec (n : Nat) : decVal (natDec n) = n := decVal_natDecF n n le_rfl

theorem natDecF_mem : ∀ f n c, c ∈ natDecF f n → isDig c = true := by
  intro f
  induction f with
  | zero => intro n c h; simp [natDecF] at h
  | succ f ih =>
    intro n c h
    by_cases hn : n = 0
    · subst hn; rw [natDecF_zero] at h; simp at h
    · simp only [natDecF, if_neg hn, List.mem_append, List.mem_singleton] at h
      rcases h with h | h
      · exact ih _ _ h
      · subst h; exact decChar_isDig (by omega)

theorem natDecRepr_mem {n : Nat} {c : Char} (h : c ∈ natDecRepr n) : isDig c = true := by
  unfold natDecRepr at h
  split at h
  · simp at h; subst h; decide
  · exact natDecF_mem n n c h

theorem natDecRepr_ne_nil (n : Nat) : natDecRepr n ≠ [] := by
  by_cases hn : n = 0
  · subst hn; simp [natDecRepr]
  · unfold natDecRepr
    rw [if_neg hn]
    cases n with
    | zero => exact absurd rfl hn
    | succ m =>
      show natDecF (m + 1) (m + 1) ≠ []
      simp [natDecF, hn]

theorem decVal_natDecRepr (n : Nat) : decVal (natDecRepr n) = n := by
  by_cases hn : n = 0
  · subst hn; rfl
  · unfold natDecRepr; rw [if_neg hn]; exact decVal_natDec n

theorem natBin_pow_add : ∀ k m : Nat, m < 2 ^ k →
    natBin (2 ^ k + m) = '1' :: (List.replicate (k - (natBin m).length) '0' ++ natBin m) := by
  intro k
  induction k with
  | zero =>
    intro m hm
    have hm0 : m = 0 := by simpa using Nat.lt_one_iff.mp (by simpa using hm)
    subst hm0
    decide
  | succ k ih =>
    intro m hm
    have hp : (2:Nat) ^ (k + 1) = 2 * 2 ^ k := by rw [pow_succ]; ring
    have hpos : 0 < (2:Nat) ^ (k + 1) := Nat.pos_pow_of_pos _ (by norm_num)
    have hne : 2 ^ (k + 1) + m ≠ 0 := by omega
    rw [natBin_eq, if_neg hne]
    have hdiv : (2 ^ (k + 1) + m) / 2 = 2 ^ k + m / 2 := by omega
    have hmod : (2 ^ (k + 1) + m) % 2 = m % 2 := by omega
    rw [hdiv, hmod, ih (m / 2) (by omega)]
    by_cases hm0 : m = 0
    · subst hm0
      have h0 : natBin 0 = ([] : List Char) := rfl
      simp only [Nat.zero_div, h0, List.length_nil, Nat.sub_zero, List.append_nil,
        Nat.zero_mod]
      have : (if (0:Nat) % 2 = 1 then '1' else '0') = '0' := by decide
      rw [this, List.cons_append, ← List.replicate_succ']
    · have hmlen : natBin m = natBin (m / 2) ++ [if m % 2 = 1 then '1' else '0'] := by
        conv_lhs => rw [natBin_eq]
        rw [if_neg hm0]
      rw [hmlen]
      simp only [List.length_append, List.length_cons, List.length_nil]
      have : k + 1 - ((natBin (m / 2)).length + (0 + 1)) = k - (natBin (m / 2)).length := by
        omega
      rw [this]
      simp [List.append_assoc]

theorem binPad : ∀ l : List Char, (∀ c ∈ l, c = '0' ∨ c = '1') →
    List.replicate (l.length - (natBin (binVal l)).length) '0' ++ natBin (binVal l) = l := by
  intro l
  induction l with
  | nil => intro _; rfl
  | cons c r ih =>
    intro h
    have hr : ∀ x ∈ r, x = '0' ∨ x = '1' := fun x hx => h x (List.mem_cons_of_mem _ hx)
    have hlen : (natBin (binVal r)).length ≤ r.length := natBin_len (binVal_lt r)
    rcases h c (by simp) with rfl | rfl
    · have hv : binVal ('0' :: r) = binVal r := by
        rw [binVal_cons]
        have : binDigVal '0' = 0 := by decide
        rw [this]; ring
      rw [hv]
      have hcount : ('0' :: r).length - (natBin (binVal r)).length
          = (r.length - (natBin (binVal r)).length) + 1 := by
        simp only [List.length_cons]; omega
      rw [hcount, List.replicate_succ, List.cons_append, ih hr]
    · have hv : binVal ('1' :: r) = 2 ^ r.length + binVal r := by
        rw [binVal_cons]
        have : binDigVal '1' = 1 := by decide
        rw [this]; ring
      rw [hv, natBin_pow_add r.length (binVal r) (binVal_lt r)]
      have hL : ('1' :: (List.replicate (r.length - (natBin (binVal r)).length) '0'
          ++ natBin (binVal r))).length = r.length + 1 := by
        simp only [List.length_cons, List.length_append, List.length_replicate]
        omega
      rw [hL]
      have hz : ('1' :: r).length - (r.length + 1) = 0 := by simp
      rw [hz]
      simp only [List.replicate, List.nil_append, List.cons.injEq, true_and]
      exact ih hr

theorem natBinRepr_mem {n : Nat} {c : Char} (h : c ∈ natBinRepr n) : c = '0' ∨ c = '1' := by
  unfold natBinRepr at h
  split at h
  · simp at h; subst h; simp
  · exact natBin_mem h

theorem natBinRepr_len {n : Nat} (h : n ≤ 255) : (natBinRepr n).length ≤ 8 := by
  unfold natBinRepr
  split
  · simp
  · exact natBin_len (k := 8) (by omega)

theorem binVal_natBinRepr (n : Nat) : binVal (natBinRepr n) = n := by
  unfold natBinRepr
  split
  · subst ‹n = 0›
    rfl
  · exact binVal_natBin n

theorem block8_length {n : Nat} (h : n ≤ 255) : (block8 n).length = 8 := by
  have := natBinRepr_len h
  simp only [block8, List.length_append, List.length_replicate]
  omega

theorem block8_mem {n : Nat} {c : Char} (h : c ∈ block8 n) : c = '0' ∨ c = '1' := by
  simp only [block8, List.mem_append] at h
  rcases h with h | h
  · exact Or.inl (List.eq_of_mem_replicate h)
  · exact natBinRepr_mem h

theorem binVal_block8 (n : Nat) : binVal (block8 n) = n := by
  unfold block8
  rw [binVal_replicate_zero, binVal_natBinRepr]

theorem block8_roundtrip {l : List Char} (h8 : l.length = 8)
    (hb : ∀ c ∈ l, c = '0' ∨ c = '1') : block8 (binVal l) = l := by
  have hpad := binPad l hb
  by_cases h0 : binVal l = 0
  · rw [h0] at hpad
    have hnb : natBin 0 = ([] : List Char) := rfl
    rw [hnb, List.append_nil, List.length_nil, Nat.sub_zero, h8] at hpad
    rw [h0]
    show List.replicate (8 - (natBinRepr 0).length) '0' ++ natBinRepr 0 = l
    rw [← hpad]
    decide
  · unfold block8 natBinRepr
    rw [if_neg h0, ← h8]
    exact hpad

/-! ## Parser lemmas -/

theorem pyDigitsGo_digits (isD : Char → Bool) (dv : Char → Nat) (base : Nat) :
    ∀ (l : List Char) (a : Nat), (∀ c ∈ l, isD c = true) →
      pyDigitsGo isD dv base l a = some (l.foldl (fun x c => base * x + dv c) a) := by
  intro l
  induction l with
  | nil => intro a _; rfl
  | cons c t ih =>
    intro a h
    have hc := h c (by simp)
    cases t with
    | nil => simp [pyDigitsGo, hc]
    | cons d r =>
      simp only [pyDigitsGo, hc, if_true, List.foldl_cons]
      exact ih (base * a + dv c) (fun x hx => h x (by simp [hx]))

theorem parseUD_digits (isD : Char → Bool) (dv : Char → Nat) (base : Nat) {l : List Char}
    (hne : l ≠ []) (h : ∀ c ∈ l, isD c = true) :
    parseUD isD dv base l = some (l.foldl (fun x c => base * x + dv c) 0) := by
  cases l with
  | nil => exact absurd rfl hne
  | cons c r =>
    have hc := h c (by simp)
    simp only [parseUD, hc, if_true, List.foldl_cons]
    rw [pyDigitsGo_digits isD dv base r (dv c) (fun x hx => h x (by simp [hx]))]
    norm_num

theorem pyInt?_digits {l : List Char} (hne : l ≠ []) (h : ∀ c ∈ l, isDig c = true) :
    pyInt? l = some ((decVal l : Nat) : Int) := by
  have hs : stripList l = l := stripList_of_none (fun c hc => (isDig_not_special (h c hc)).1)
  unfold pyInt?
  rw [hs]
  cases l with
  | nil => exact absurd rfl hne
  | cons c r =>
    obtain ⟨_, _, hp, hm, _⟩ := isDig_not_special (h c (by simp))
    simp only [hp, hm, Bool.false_eq_true, if_false]
    rw [parseUD_digits isDig digVal 10 hne h]
    rfl

theorem pyInt?_natDecRepr (n : Nat) : pyInt? (natDecRepr n) = some ((n : Nat) : Int) := by
  rw [pyInt?_digits (natDecRepr_ne_nil n) (fun c hc => natDecRepr_mem hc), decVal_natDecRepr]

theorem parseBin_digits {l : List Char} (hne : l ≠ []) (h : ∀ c ∈ l, c = '0' ∨ c = '1') :
    parseBin l = some (binVal l) := by
  have hd : ∀ c ∈ l, isBinDig c = true := fun c hc => isBinDig_iff.mpr (h c hc)
  have hgoal : parseUD isBinDig binDigVal 2 l = some (binVal l) :=
    parseUD_digits isBinDig binDigVal 2 hne hd
  match l with
  | [] => exact absurd rfl hne
  | [c] => exact hgoal
  | c :: d :: r =>
    obtain ⟨_, _, _, hb, hB⟩ := binDig_not_special (h d (by simp))
    simp only [parseBin, hb, hB, Bool.or_self, Bool.and_false, Bool.false_eq_true, if_false]
    exact hgoal

theorem pyInt2?_digits {l : List Char} (hne : l ≠ []) (h : ∀ c ∈ l, c = '0' ∨ c = '1') :
    pyInt2? l = some ((binVal l : Nat) : Int) := by
  have hs : stripList l = l := stripList_of_none (fun c hc => (binDig_not_special (h c hc)).1)
  unfold pyInt2?
  rw [hs]
  cases l with
  | nil => exact absurd rfl hne
  | cons c r =>
    obtain ⟨_, hp, hm, _, _⟩ := binDig_not_special (h c (by simp))
    simp only [hp, hm, Bool.false_eq_true, if_false]
    rw [parseBin_digits hne h]
    rfl

theorem pyStrInt_ofNat (n : Nat) : pyStrInt ((n : Nat) : Int) = natDecRepr n := by
  unfold pyStrInt
  rw [if_neg (by exact Int.not_lt.mpr (Int.ofNat_nonneg n)), Int.toNat_ofNat]

theorem pyFormatB_ofNat (n : Nat) : pyFormatB 8 ((n : Nat) : Int) = block8 n := by
  unfold pyFormatB block8
  rw [if_neg (by exact Int.not_lt.mpr (Int.ofNat_nonneg n)), Int.toNat_ofNat]

/-! ## `split` lemmas -/

theorem splitOnChar_ne_nil (sep : Char) (l : List Char) : splitOnChar sep l ≠ [] := by
  cases l with
  | nil => simp [splitOnChar]
  | cons c r =>
    unfold splitOnChar
    split
    · simp
    · split <;> simp

theorem splitOnChar_cons (sep c : Char) (r : List Char) :
    splitOnChar sep (c :: r) =
      if c == sep then [] :: splitOnChar sep r
      else
        match splitOnChar sep r with
        | [] => [[c]]
        | p :: ps => (c :: p) :: ps := rfl

theorem splitOnChar_no_sep {sep : Char} {l : List Char} (h : ∀ x ∈ l, (x == sep) = false) :
    splitOnChar sep l = [l] := by
  induction l with
  | nil => rfl
  | cons c r ih =>
    have hc := h c (by simp)
    rw [splitOnChar_cons, if_neg (by simp [hc]), ih (fun x hx => h x (by simp [hx]))]

theorem splitOnChar_append {sep : Char} {l1 l2 : List Char}
    (h : ∀ x ∈ l1, (x == sep) = false) :
    splitOnChar sep (l1 ++ sep :: l2) = l1 :: splitOnChar sep l2 := by
  induction l1 with
  | nil =>
    show splitOnChar sep (sep :: l2) = [] :: splitOnChar sep l2
    rw [splitOnChar_cons, if_pos (by simp)]
  | cons c r ih =>
    have hc := h c (by simp)
    show splitOnChar sep (c :: (r ++ sep :: l2)) = _
    rw [splitOnChar_cons, if_neg (by simp [hc]), ih (fun x hx => h x (by simp [hx]))]

/-! ## Shape of validated addresses -/

theorem length_four {α : Type} {l : List α} (h : l.length = 4) :
    ∃ a b c d, l = [a, b, c, d] := by
  cases l with
  | nil => simp at h
  | cons a t =>
    simp only [List.length_cons] at h
    obtain ⟨b, c, d, rfl⟩ := List.length_eq_three.mp (show t.length = 3 by omega)
    exact ⟨a, b, c, d, rfl⟩

theorem validate_ip_eq_true_iff {s : List Char} :
    validate_ip s = true ↔
      (splitOnChar '.' s).length = 4 ∧ ∀ p ∈ splitOnChar '.' s, octetOk p = true := by
  unfold validate_ip
  split
  · next h => simp [h]
  · next h =>
    have h4 : (splitOnChar '.' s).length = 4 := not_ne_iff.mp h
    simp [h4, List.all_eq_true]

theorem octetOk_some {p : List Char} {v : Int} (hp : pyInt? p = some v) :
    octetOk p = if (decide (v < 0) || decide (255 < v)) = true then false else true := by
  unfold octetOk
  rw [hp]

theorem octetOk_iff {p : List Char} :
    octetOk p = true ↔ ∃ n : Nat, pyInt? p = some ((n : Nat) : Int) ∧ n ≤ 255 := by
  cases hp : pyInt? p with
  | none =>
    unfold octetOk
    rw [hp]
    simp
  | some v =>
    rw [octetOk_some hp]
    constructor
    · intro h
      have hc : ¬(v < 0 ∨ 255 < v) := by
        intro hcon
        rw [if_pos (by simpa using hcon)] at h
        exact absurd h (by simp)
      push_neg at hc
      refine ⟨v.toNat, ?_, by omega⟩
      rw [Int.toNat_of_nonneg hc.1]
    · rintro ⟨n, hn, hle⟩
      have hv : v = ((n : Nat) : Int) := Option.some.inj hn
      subst hv
      have hside : ¬((decide (((n : Nat) : Int) < 0) || decide (255 < ((n : Nat) : Int))) = true) := by
        simp only [Bool.or_eq_true, decide_eq_true_eq]
        rintro (hc | hc) <;> omega
      rw [if_neg hside]

theorem valid_ip_bits {s : List Char} (h : validate_ip s = true) :
    ∃ b, ip_to_binary s = some b ∧ b.length = 32 ∧ ∀ c ∈ b, c = '0' ∨ c = '1' := by
  obtain ⟨h4, hall⟩ := validate_ip_eq_true_iff.mp h
  obtain ⟨p1, p2, p3, p4, heq⟩ := length_four h4
  obtain ⟨n1, hn1, hle1⟩ := octetOk_iff.mp (hall p1 (by rw [heq]; simp))
  obtain ⟨n2, hn2, hle2⟩ := octetOk_iff.mp (hall p2 (by rw [heq]; simp))
  obtain ⟨n3, hn3, hle3⟩ := octetOk_iff.mp (hall p3 (by rw [heq]; simp))
  obtain ⟨n4, hn4, hle4⟩ := octetOk_iff.mp (hall p4 (by rw [heq]; simp))
  refine ⟨block8 n1 ++ (block8 n2 ++ (block8 n3 ++ (block8 n4 ++ []))), ?_, ?_, ?_⟩
  · unfold ip_to_binary
    rw [heq]
    simp only [octsToBits, hn1, hn2, hn3, hn4, pyFormatB_ofNat]
  · simp [List.length_append, block8_length hle1, block8_length hle2, block8_length hle3,
      block8_length hle4]
  · intro c hc
    simp only [List.mem_append, List.not_mem_nil, or_false] at hc
    rcases hc with hc | hc | hc | hc <;> exact block8_mem hc

/-! ## The codec round trips -/

theorem binary_to_ip_of_bits {b : List Char} (h32 : b.length = 32)
    (hb : ∀ c ∈ b, c = '0' ∨ c = '1') :
    binary_to_ip b = some (ipStr (binVal (b.take 8)) (binVal ((b.drop 8).take 8))
      (binVal ((b.drop 16).take 8)) (binVal ((b.drop 24).take 8))) := by
  have l1 : (b.take 8).length = 8 := by simp [List.length_take]; omega
  have l2 : ((b.drop 8).take 8).length = 8 := by
    simp [List.length_take, List.length_drop]; omega
  have l3 : ((b.drop 16).take 8).length = 8 := by
    simp [List.length_take, List.length_drop]; omega
  have l4 : ((b.drop 24).take 8).length = 8 := by
    simp [List.length_take, List.length_drop]; omega
  have m1 : ∀ c ∈ b.take 8, c = '0' ∨ c = '1' := fun c hc => hb c (List.take_subset _ _ hc)
  have m2 : ∀ c ∈ (b.drop 8).take 8, c = '0' ∨ c = '1' :=
    fun c hc => hb c (List.drop_subset _ _ (List.take_subset _ _ hc))
  have m3 : ∀ c ∈ (b.drop 16).take 8, c = '0' ∨ c = '1' :=
    fun c hc => hb c (List.drop_subset _ _ (List.take_subset _ _ hc))
  have m4 : ∀ c ∈ (b.drop 24).take 8, c = '0' ∨ c = '1' :=
    fun c hc => hb c (List.drop_subset _ _ (List.take_subset _ _ hc))
  have ne1 : b.take 8 ≠ [] := by rw [← List.length_pos, l1]; norm_num
  have ne2 : (b.drop 8).take 8 ≠ [] := by rw [← List.length_pos, l2]; norm_num
  have ne3 : (b.drop 16).take 8 ≠ [] := by rw [← List.length_pos, l3]; norm_num
  have ne4 : (b.drop 24).take 8 ≠ [] := by rw [← List.length_pos, l4]; norm_num
  unfold binary_to_ip
  rw [pyInt2?_digits ne1 m1, pyInt2?_digits ne2 m2, pyInt2?_digits ne3 m3, pyInt2?_digits ne4 m4]
  simp only [pyStrInt_ofNat, ipStr]

theorem ip_to_binary_ipStr (n1 n2 n3 n4 : Nat) :
    ip_to_binary (ipStr n1 n2 n3 n4)
      = some (block8 n1 ++ (block8 n2 ++ (block8 n3 ++ (block8 n4 ++ [])))) := by
  have hnd : ∀ m : Nat, ∀ x ∈ natDecRepr m, (x == '.') = false :=
    fun m x hx => (isDig_not_special (natDecRepr_mem hx)).2.1
  have hsplit : splitOnChar '.' (ipStr n1 n2 n3 n4)
      = [natDecRepr n1, natDecRepr n2, natDecRepr n3, natDecRepr n4] := by
    unfold ipStr
    rw [splitOnChar_append (hnd n1), splitOnChar_append (hnd n2), splitOnChar_append (hnd n3),
      splitOnChar_no_sep (hnd n4)]
  unfold ip_to_binary
  rw [hsplit]
  simp only [octsToBits, pyInt?_natDecRepr, pyFormatB_ofNat]

theorem block8_ne_nil {n : Nat} (h : n ≤ 255) : block8 n ≠ [] := by
  have := block8_length h
  intro he
  rw [he] at this
  simp at this

theorem bits_roundtrip_32 {b : List Char} (h32 : b.length = 32)
    (hb : ∀ c ∈ b, c = '0' ∨ c = '1') :
    (binary_to_ip b).bind ip_to_binary = some b := by
  rw [binary_to_ip_of_bits h32 hb, Option.some_bind, ip_to_binary_ipStr]
  have l1 : (b.take 8).length = 8 := by simp [List.length_take]; omega
  have l2 : ((b.drop 8).take 8).length = 8 := by
    simp [List.length_take, List.length_drop]; omega
  have l3 : ((b.drop 16).take 8).length = 8 := by
    simp [List.length_take, List.length_drop]; omega
  have l4 : ((b.drop 24).take 8).length = 8 := by
    simp [List.length_take, List.length_drop]; omega
  have m1 : ∀ c ∈ b.take 8, c = '0' ∨ c = '1' := fun c hc => hb c (List.take_subset _ _ hc)
  have m2 : ∀ c ∈ (b.drop 8).take 8, c = '0' ∨ c = '1' :=
    fun c hc => hb c (List.drop_subset _ _ (List.take_subset _ _ hc))
  have m3 : ∀ c ∈ (b.drop 16).take 8, c = '0' ∨ c = '1' :=
    fun c hc => hb c (List.drop_subset _ _ (List.take_subset _ _ hc))
  have m4 : ∀ c ∈ (b.drop 24).take 8, c = '0' ∨ c = '1' :=
    fun c hc => hb c (List.drop_subset _ _ (List.take_subset _ _ hc))
  rw [block8_roundtrip l1 m1, block8_roundtrip l2 m2, block8_roundtrip l3 m3,
    block8_roundtrip l4 m4, List.append_nil]
  have e4 : (b.drop 24).take 8 = b.drop 24 :=
    List.take_of_length_le (by simp [List.length_drop]; omega)
  rw [e4]
  have e16 : (b.drop 16).take 8 ++ b.drop 24 = b.drop 16 := by
    have : (b.drop 16).drop 8 = b.drop 24 := by rw [List.drop_drop]
    rw [← this, List.take_append_drop]
  have e8 : (b.drop 8).take 8 ++ b.drop 16 = b.drop 8 := by
    have : (b.drop 8).drop 8 = b.drop 16 := by rw [List.drop_drop]
    rw [← this, List.take_append_drop]
  rw [e16, e8, List.take_append_drop]

theorem ipStr_roundtrip {n1 n2 n3 n4 : Nat} (h1 : n1 ≤ 255) (h2 : n2 ≤ 255)
    (h3 : n3 ≤ 255) (h4 : n4 ≤ 255) :
    (ip_to_binary (ipStr n1 n2 n3 n4)).bind binary_to_ip = some (ipStr n1 n2 n3 n4) := by
  rw [ip_to_binary_ipStr, Option.some_bind]
  have hL1 := block8_length h1
  have hL2 := block8_length h2
  have hL3 := block8_length h3
  have hL4 := block8_length h4
  have s1 : (block8 n1 ++ (block8 n2 ++ (block8 n3 ++ (block8 n4 ++ [])))).take 8
      = block8 n1 := List.take_left' hL1
  have d1 : (block8 n1 ++ (block8 n2 ++ (block8 n3 ++ (block8 n4 ++ [])))).drop 8
      = block8 n2 ++ (block8 n3 ++ (block8 n4 ++ [])) := List.drop_left' hL1
  have s2 : (block8 n2 ++ (block8 n3 ++ (block8 n4 ++ []))).take 8 = block8 n2 :=
    List.take_left' hL2
  have d2 : (block8 n2 ++ (block8 n3 ++ (block8 n4 ++ []))).drop 8
      = block8 n3 ++ (block8 n4 ++ []) := List.drop_left' hL2
  have s3 : (block8 n3 ++ (block8 n4 ++ [])).take 8 = block8 n3 := List.take_left' hL3
  have d3 : (block8 n3 ++ (block8 n4 ++ [])).drop 8 = block8 n4 ++ [] := List.drop_left' hL3
  have s4 : (block8 n4 ++ ([] : List Char)).take 8 = block8 n4 := by
    rw [List.append_nil]
    exact List.take_of_length_le (by omega)
  have hd16 : (block8 n1 ++ (block8 n2 ++ (block8 n3 ++ (block8 n4 ++ [])))).drop 16
      = block8 n3 ++ (block8 n4 ++ []) := by
    have : ((block8 n1 ++ (block8 n2 ++ (block8 n3 ++ (block8 n4 ++ [])))).drop 8).drop 8
        = (block8 n1 ++ (block8 n2 ++ (block8 n3 ++ (block8 n4 ++ [])))).drop 16 := by
      rw [List.drop_drop]
    rw [← this, d1, d2]
  have hd24 : (block8 n1 ++ (block8 n2 ++ (block8 n3 ++ (block8 n4 ++ [])))).drop 24
      = block8 n4 ++ [] := by
    have : ((block8 n1 ++ (block8 n2 ++ (block8 n3 ++ (block8 n4 ++ [])))).drop 16).drop 8
        = (block8 n1 ++ (block8 n2 ++ (block8 n3 ++ (block8 n4 ++ [])))).drop 24 := by
      rw [List.drop_drop]
    rw [← this, hd16, d3]
  unfold binary_to_ip
  rw [s1, d1, s2, hd16, s3, hd24, s4]
  have hm : ∀ n : Nat, n ≤ 255 → pyInt2? (block8 n) = some ((n : Nat) : Int) := by
    intro n hn
    rw [pyInt2?_digits (block8_ne_nil hn) (fun c hc => block8_mem hc), binVal_block8]
  rw [hm n1 h1, hm n2 h2, hm n3 h3, hm n4 h4]
  simp only [pyStrInt_ofNat, ipStr]

/-! ## The mask-contiguity scan -/

theorem maskScan_cons (c : Char) (r : List Char) (flag : Bool) :
    maskScan (c :: r) flag =
      if c == '0' then maskScan r true
      else if flag && c == '1' then false
      else maskScan r flag := rfl

theorem maskScan_false_iff : ∀ (l : List Char) (flag : Bool),
    maskScan l flag = false ↔
      ∃ j, j < l.length ∧ l.getD j ' ' = '1' ∧
        (flag = true ∨ ∃ i, i < j ∧ l.getD i ' ' = '0') := by
  intro l
  induction l with
  | nil => intro flag; simp [maskScan]
  | cons c r ih =>
    intro flag
    by_cases hc0 : c = '0'
    · subst hc0
      rw [maskScan_cons, if_pos (by simp), ih true]
      constructor
      · rintro ⟨j, hj, h1, _⟩
        refine ⟨j + 1, by simpa using hj, by simpa using h1, Or.inr ⟨0, by omega, rfl⟩⟩
      · rintro ⟨j, hj, h1, _⟩
        cases j with
        | zero => simp at h1
        | succ j =>
          exact ⟨j, by simpa using hj, by simpa using h1, Or.inl rfl⟩
    · by_cases hc1 : flag = true ∧ c = '1'
      · obtain ⟨hf, rfl⟩ := hc1
        subst hf
        rw [maskScan_cons, if_neg (by simp), if_pos (by simp)]
        constructor
        · intro _
          exact ⟨0, by simp, by simp, Or.inl rfl⟩
        · intro _; rfl
      · have h2 : (flag && (c == '1')) = false := by
          by_cases hc : c = '1'
          · subst hc
            have hf : flag = false := by
              rcases Bool.eq_false_or_eq_true flag with hf | hf
              · exact absurd ⟨hf, rfl⟩ hc1
              · exact hf
            simp [hf]
          · simp [hc]
        rw [maskScan_cons, if_neg (by simp [hc0]), if_neg (by simp [h2]), ih flag]
        constructor
        · rintro ⟨j, hj, h1, hrest⟩
          refine ⟨j + 1, by simpa using hj, by simpa using h1, ?_⟩
          rcases hrest with hf | ⟨i, hij, hi⟩
          · exact Or.inl hf
          · exact Or.inr ⟨i + 1, by omega, by simpa using hi⟩
        · rintro ⟨j, hj, h1, hrest⟩
          cases j with
          | zero =>
            simp only [List.getD_cons_zero] at h1
            rcases hrest with hf | ⟨i, hij, _⟩
            · exact absurd ⟨hf, h1⟩ hc1
            · omega
          | succ j =>
            refine ⟨j, by simpa using hj, by simpa using h1, ?_⟩
            rcases hrest with hf | ⟨i, hij, hi⟩
            · exact Or.inl hf
            · cases i with
              | zero =>
                simp only [List.getD_cons_zero] at hi
                exact absurd hi hc0
              | succ i => exact Or.inr ⟨i, by omega, by simpa using hi⟩

theorem validate_subnet_mask_eq {m b : List Char} (hv : validate_ip m = true)
    (hb : ip_to_binary m = some b) : validate_subnet_mask m = maskScan b false := by
  unfold validate_subnet_mask
  simp only [hv, Bool.not_true, Bool.false_eq_true, if_false, hb]

/-! ## Bit indexing of the AND / OR comprehensions -/

theorem mapRange_getD (f : Nat → Char) (n i : Nat) (d : Char) (h : i < n) :
    ((List.range n).map f).getD i d = f i := by
  rw [List.getD_eq_getElem?_getD, List.getElem?_map, List.getElem?_range h]
  rfl

theorem getD_mem {l : List Char} {i : Nat} {d : Char} (h : i < l.length) : l.getD i d ∈ l := by
  rw [List.getD_eq_getElem?_getD, List.getElem?_eq_getElem h]
  exact List.getElem_mem h

theorem andBits32_getD {ib mb : List Char} {i : Nat} (h : i < 32) :
    (andBits32 ib mb).getD i ' '
      = if ib.getD i ' ' == '1' && mb.getD i ' ' == '1' then '1' else '0' :=
  mapRange_getD _ 32 i ' ' h

theorem andBits32_length (ib mb : List Char) : (andBits32 ib mb).length = 32 := by
  simp [andBits32]

theorem andBits32_mem {ib mb : List Char} {c : Char} (h : c ∈ andBits32 ib mb) :
    c = '0' ∨ c = '1' := by
  simp only [andBits32, List.mem_map] at h
  obtain ⟨i, _, hi⟩ := h
  subst hi
  split
  · exact Or.inr rfl
  · exact Or.inl rfl

theorem orNotBits32_getD {nb mb : List Char} {i : Nat} (h : i < 32) :
    (orNotBits32 nb mb).getD i ' '
      = if mb.getD i ' ' == '0' then '1' else nb.getD i ' ' :=
  mapRange_getD _ 32 i ' ' h

theorem orNotBits32_length (nb mb : List Char) : (orNotBits32 nb mb).length = 32 := by
  simp [orNotBits32]

theorem orNotBits32_mem {nb mb : List Char} {c : Char} (hnb32 : nb.length = 32)
    (hnb : ∀ c ∈ nb, c = '0' ∨ c = '1') (h : c ∈ orNotBits32 nb mb) :
    c = '0' ∨ c = '1' := by
  simp only [orNotBits32, List.mem_map, List.mem_range] at h
  obtain ⟨i, hi, hie⟩ := h
  subst hie
  split
  · exact Or.inr rfl
  · exact hnb _ (getD_mem (by omega))

/-! ## Grammar characterization of the octet parser (claim C1) -/

theorem pyDigitsGo_eq_grammar : ∀ (n : Nat) (l : List Char), l.length ≤ n → ∀ a : Nat,
    pyDigitsGo isDig digVal 10 l a
      = if grammarTail l
        then some ((l.filter (fun c => !(c == '_'))).foldl (fun x c => 10 * x + digVal c) a)
        else none := by
  intro n
  induction n with
  | zero =>
    intro l hlen a
    have : l = [] := by cases l with | nil => rfl | cons c r => simp at hlen
    subst this
    simp [pyDigitsGo, grammarTail]
  | succ n ih =>
    intro l hlen a
    match l with
    | [] => simp [pyDigitsGo, grammarTail]
    | [c] =>
      by_cases hc : isDig c = true
      · have hu := (isDig_not_special hc).2.2.2.2
        simp [pyDigitsGo, grammarTail, hc, hu]
      · simp [pyDigitsGo, grammarTail, hc]
    | c :: d :: r =>
      simp only [List.length_cons] at hlen
      by_cases hc : isDig c = true
      · have hu := (isDig_not_special hc).2.2.2.2
        have hstep : pyDigitsGo isDig digVal 10 (c :: d :: r) a
            = pyDigitsGo isDig digVal 10 (d :: r) (10 * a + digVal c) := by
          simp [pyDigitsGo, hc]
        rw [hstep, ih (d :: r) (by simp only [List.length_cons] at hlen ⊢; omega)
          (10 * a + digVal c)]
        have hg : grammarTail (c :: d :: r) = grammarTail (d :: r) := by
          simp [grammarTail, hc]
        rw [hg]
        have hf : (c :: d :: r).filter (fun x => !(x == '_'))
            = c :: ((d :: r).filter (fun x => !(x == '_'))) := by
          simp [List.filter_cons, hu]
        rw [hf]
        split
        · simp
        · rfl
      · by_cases hund : (c == '_') = true
        · by_cases hd : isDig d = true
          · have hstep : pyDigitsGo isDig digVal 10 (c :: d :: r) a
                = pyDigitsGo isDig digVal 10 r (10 * a + digVal d) := by
              simp [pyDigitsGo, hc, hund, hd]
            rw [hstep, ih r (by omega) (10 * a + digVal d)]
            have hg : grammarTail (c :: d :: r) = grammarTail r := by
              simp [grammarTail, hc, hund, hd]
            rw [hg]
            have hdu := (isDig_not_special hd).2.2.2.2
            have hf : (c :: d :: r).filter (fun x => !(x == '_'))
                = d :: (r.filter (fun x => !(x == '_'))) := by
              simp [List.filter_cons, hund, hdu]
            rw [hf]
            split
            · simp
            · rfl
          · have hstep : pyDigitsGo isDig digVal 10 (c :: d :: r) a = none := by
              simp [pyDigitsGo, hc, hund, hd]
            have hg : grammarTail (c :: d :: r) = false := by
              simp [grammarTail, hc, hund, hd]
            rw [hstep, hg]
            rfl
        · have hstep : pyDigitsGo isDig digVal 10 (c :: d :: r) a = none := by
            simp [pyDigitsGo, hc, hund]
          have hg : grammarTail (c :: d :: r) = false := by
            simp [grammarTail, hc, hund]
          rw [hstep, hg]
          rfl

theorem parseUD_eq_grammar (l : List Char) :
    parseUD isDig digVal 10 l = if grammarOk l then some (uVal l) else none := by
  cases l with
  | nil => simp [parseUD, grammarOk]
  | cons c r =>
    by_cases hc : isDig c = true
    · have hu := (isDig_not_special hc).2.2.2.2
      have hstep : parseUD isDig digVal 10 (c :: r) = pyDigitsGo isDig digVal 10 r (digVal c) := by
        simp [parseUD, hc]
      rw [hstep, pyDigitsGo_eq_grammar r.length r le_rfl (digVal c)]
      have hg : grammarOk (c :: r) = grammarTail r := by simp [grammarOk, hc]
      rw [hg]
      have hf : uVal (c :: r)
          = (r.filter (fun x => !(x == '_'))).foldl (fun x c => 10 * x + digVal c) (digVal c) := by
        unfold uVal decVal
        rw [show (c :: r).filter (fun x => !(x == '_'))
            = c :: (r.filter (fun x => !(x == '_'))) from by simp [List.filter_cons, hu]]
        simp [List.foldl_cons]
      rw [hf]
    · simp [parseUD, grammarOk, hc]

theorem rangeCheck (n : Nat) :
    (if (decide (((n : Nat) : Int) < 0) || decide (255 < ((n : Nat) : Int))) = true
      then false else true) = decide (n ≤ 255) := by
  by_cases h : n ≤ 255
  · have hA : ¬(((n : Nat) : Int) < 0) := by omega
    have hB : ¬((255 : Int) < ((n : Nat) : Int)) := by omega
    simp [hA, hB, h]
  · have hB : (255 : Int) < ((n : Nat) : Int) := by omega
    simp [hB, h]

theorem rangeCheckNeg (n : Nat) :
    (if (decide ((-((n : Nat) : Int)) < 0) || decide (255 < (-((n : Nat) : Int)))) = true
      then false else true) = decide (n = 0) := by
  by_cases h : n = 0
  · subst h
    decide
  · have hA : (-((n : Nat) : Int)) < 0 := by omega
    simp [hA, h]

theorem octetOk_of_parse (p u : List Char)
    (hint : pyInt? p = (parseUD isDig digVal 10 u).map (fun n => ((n : Nat) : Int))) :
    octetOk p = (grammarOk u && decide (uVal u ≤ 255)) := by
  unfold octetOk
  rw [hint, parseUD_eq_grammar]
  by_cases hg : grammarOk u = true
  · rw [if_pos hg]
    show (if (decide (((uVal u : Nat) : Int) < 0) || decide (255 < ((uVal u : Nat) : Int))) = true
      then false else true) = (grammarOk u && decide (uVal u ≤ 255))
    rw [rangeCheck, hg, Bool.true_and]
  · rw [if_neg hg]
    simp [hg]

theorem octetOk_of_parse_neg (p u : List Char)
    (hint : pyInt? p = (parseUD isDig digVal 10 u).map (fun n => -((n : Nat) : Int))) :
    octetOk p = (grammarOk u && decide (uVal u = 0)) := by
  unfold octetOk
  rw [hint, parseUD_eq_grammar]
  by_cases hg : grammarOk u = true
  · rw [if_pos hg]
    show (if (decide ((-((uVal u : Nat) : Int)) < 0) || decide (255 < (-((uVal u : Nat) : Int)))) = true
      then false else true) = (grammarOk u && decide (uVal u = 0))
    rw [rangeCheckNeg, hg, Bool.true_and]
  · rw [if_neg hg]
    simp [hg]

theorem pyInt?_cons {p : List Char} {c : Char} {r : List Char} (hs : stripList p = c :: r) :
    pyInt? p =
      if c == '+' then (parseUD isDig digVal 10 r).map (fun n : Nat => (n : Int))
      else if c == '-' then (parseUD isDig digVal 10 r).map (fun n : Nat => -(n : Int))
      else (parseUD isDig digVal 10 (c :: r)).map (fun n : Nat => (n : Int)) := by
  unfold pyInt?
  rw [hs]

theorem okPartB_cons {p : List Char} {c : Char} {r : List Char} (hs : stripList p = c :: r) :
    okPartB p =
      if c == '+' then grammarOk r && decide (uVal r ≤ 255)
      else if c == '-' then grammarOk r && decide (uVal r = 0)
      else grammarOk (c :: r) && decide (uVal (c :: r) ≤ 255) := by
  unfold okPartB
  rw [hs]

theorem octetOk_eq_okPartB (p : List Char) : octetOk p = okPartB p := by
  cases hs : stripList p with
  | nil =>
    have h1 : pyInt? p = none := by unfold pyInt?; rw [hs]
    have h2 : okPartB p = false := by unfold okPartB; rw [hs]
    rw [h2]
    unfold octetOk
    rw [h1]
  | cons c r =>
    have hpy := pyInt?_cons hs
    have hok := okPartB_cons hs
    by_cases hplus : (c == '+') = true
    · rw [octetOk_of_parse p r (by rw [hpy, if_pos hplus])]
      rw [hok, if_pos hplus]
    · by_cases hminus : (c == '-') = true
      · rw [octetOk_of_parse_neg p r (by rw [hpy, if_neg hplus, if_pos hminus])]
        rw [hok, if_neg hplus, if_pos hminus]
      · rw [octetOk_of_parse p (c :: r) (by rw [hpy, if_neg hplus, if_neg hminus])]
        rw [hok, if_neg hplus, if_neg hminus]

theorem validate_ip_eq_pyAcceptSpec (s : List Char) : validate_ip s = pyAcceptSpec s := by
  unfold validate_ip pyAcceptSpec
  by_cases h4 : (splitOnChar '.' s).length = 4
  · rw [if_neg (by simp [h4])]
    have hd : decide ((splitOnChar '.' s).length = 4) = true := by simp [h4]
    rw [hd, Bool.true_and]
    have : octetOk = okPartB := funext octetOk_eq_okPartB
    rw [this]
  · rw [if_pos (by simp [h4])]
    have hd : decide ((splitOnChar '.' s).length = 4) = false := by simp [h4]
    rw [hd, Bool.false_and]

/-! ## Reduction lemmas for the derived operations -/

theorem validate_subnet_mask_validate_ip {m : List Char}
    (h : validate_subnet_mask m = true) : validate_ip m = true := by
  cases hvb : validate_ip m with
  | false =>
    unfold validate_subnet_mask at h
    rw [hvb] at h
    simp at h
  | true => rfl

theorem get_network_address_some {ip m ib mb : List Char}
    (hib : ip_to_binary ip = some ib) (hmb : ip_to_binary m = some mb) :
    get_network_address ip m = binary_to_ip (andBits32 ib mb) := by
  unfold get_network_address
  rw [hib, hmb]

theorem get_broadcast_address_some {ip m na nb mb : List Char}
    (hna : get_network_address ip m = some na) (hnb : ip_to_binary na = some nb)
    (hmb : ip_to_binary m = some mb) :
    get_broadcast_address ip m = binary_to_ip (orNotBits32 nb mb) := by
  unfold get_broadcast_address
  rw [hna]
  show (match ip_to_binary na, ip_to_binary m with
    | some nb, some mb => binary_to_ip (orNotBits32 nb mb)
    | _, _ => none) = _
  rw [hnb, hmb]

theorem getElem_eq_getD {l : List Char} {i : Nat} (h : i < l.length) : l[i] = l.getD i ' ' := by
  rw [List.getD_eq_getElem?_getD, List.getElem?_eq_getElem h]
  rfl

/-! ## The claims -/

/-- C1 (counterexample): the claim says `validate_ip` succeeds only when
every part is a plain digit string with no whitespace or other
characters, but the source's `int(part)` tolerates surrounding
whitespace, so `"1. 2.3.4"` is accepted by the code while the claim's
strict predicate rejects it. -/
theorem C1_validate_ip_counterexample :
    validate_ip ("1. 2.3.4".toList) = true
      ∧ specStrictValid ("1. 2.3.4".toList) = false := by
  constructor
  · decide
  · decide

/-- C1 (amended): `validate_ip` succeeds iff the string splits on `'.'`
into exactly 4 parts and each part, after stripping from both ends the
whitespace Python's `int` strips (ASCII whitespace together with NEL,
NBSP, the Unicode space separators and the line and paragraph
separators), is an optional `'+'` or `'-'` sign followed by Unicode
decimal digits (category Nd, e.g. also Arabic-Indic or fullwidth
digits) with single underscores allowed between digits, whose value is
in [0, 255] (a `'-'` sign is accepted only when the value is 0).  In
particular `"999.1.1.1"` and `"1.2.3"` are rejected. -/
theorem C1_validate_ip_characterization :
    (∀ s : List Char, validate_ip s = pyAcceptSpec s)
      ∧ validate_ip ("999.1.1.1".toList) = false
      ∧ validate_ip ("1.2.3".toList) = false :=
  ⟨validate_ip_eq_pyAcceptSpec, by decide, by decide⟩

/-- C2: for every syntactically valid mask string, `validate_subnet_mask`
returns false exactly when, in the 32-bit binary rendering, a `'1'`
occurs at a position strictly after a `'0'`; it accepts the four
contiguous examples and rejects the two non-contiguous ones. -/
theorem C2_mask_contiguity :
    (∀ m b : List Char, validate_ip m = true → ip_to_binary m = some b →
      b.length = 32 ∧
        (validate_subnet_mask m = false ↔
          ∃ i j, i < j ∧ j < 32 ∧ b.getD i ' ' = '0' ∧ b.getD j ' ' = '1'))
    ∧ validate_subnet_mask ("255.255.255.0".toList) = true
    ∧ validate_subnet_mask ("255.255.255.255".toList) = true
    ∧ validate_subnet_mask ("0.0.0.0".toList) = true
    ∧ validate_subnet_mask ("128.0.0.0".toList) = true
    ∧ validate_subnet_mask ("255.0.255.0".toList) = false
    ∧ validate_subnet_mask ("0.255.255.0".toList) = false := by
  refine ⟨?_, by decide, by decide, by decide, by decide, by decide, by decide⟩
  intro m b hv hb
  obtain ⟨b', hb', h32, hbin⟩ := valid_ip_bits hv
  rw [hb] at hb'
  have hbb : b' = b := (Option.some.inj hb').symm
  subst hbb
  refine ⟨h32, ?_⟩
  rw [validate_subnet_mask_eq hv hb, maskScan_false_iff]
  constructor
  · rintro ⟨j, hj, h1, hrest⟩
    rcases hrest with hf | ⟨i, hij, hi⟩
    · exact absurd hf (by simp)
    · exact ⟨i, j, hij, by omega, hi, h1⟩
  · rintro ⟨i, j, hij, hj32, hi0, hj1⟩
    exact ⟨j, by omega, hj1, Or.inr ⟨i, hij, hi0⟩⟩

/-- Witness for C2: applying the theorem at the mask `255.0.255.0`,
whose binary rendering has a `'0'` at position 8 and a `'1'` at
position 16. -/
theorem C2_mask_contiguity_witness :
    validate_subnet_mask ("255.0.255.0".toList) = false :=
  ((C2_mask_contiguity.1 ("255.0.255.0".toList)
      ("11111111000000001111111100000000".toList) (by decide) (by decide)).2).mpr
    ⟨8, 16, by decide⟩

/-- C3: codec round trip.  A valid `IPv4Address` is the canonical
dotted-decimal rendering `ipStr n1 n2 n3 n4` of four octet values in
[0, 255]: converting it to bits and back yields the same string, and
converting any well-formed 32-character binary string to dotted decimal
and back yields the same bits. -/
theorem C3_codec_roundtrip :
    (∀ n1 n2 n3 n4 : Nat, n1 ≤ 255 → n2 ≤ 255 → n3 ≤ 255 → n4 ≤ 255 →
      (ip_to_binary (ipStr n1 n2 n3 n4)).bind binary_to_ip = some (ipStr n1 n2 n3 n4))
    ∧ (∀ b : List Char, b.length = 32 → (∀ c ∈ b, c = '0' ∨ c = '1') →
      (binary_to_ip b).bind ip_to_binary = some b) :=
  ⟨fun _ _ _ _ h1 h2 h3 h4 => ipStr_roundtrip h1 h2 h3 h4,
   fun _ h32 hb => bits_roundtrip_32 h32 hb⟩

/-- Witness for C3: both round trips at `192.168.1.130`. -/
theorem C3_codec_roundtrip_witness :
    (ip_to_binary (ipStr 192 168 1 130)).bind binary_to_ip = some (ipStr 192 168 1 130)
    ∧ (binary_to_ip ("11000000101010000000000110000010".toList)).bind ip_to_binary
        = some ("11000000101010000000000110000010".toList) :=
  ⟨C3_codec_roundtrip.1 192 168 1 130 (by decide) (by decide) (by decide) (by decide),
   C3_codec_roundtrip.2 ("11000000101010000000000110000010".toList) (by decide) (by decide)⟩

/-- C4: for every valid mask, the usable host count is 0 when the count
`h` of `'0'` bits is 0 and `2 ^ h - 2` otherwise, with the four
concrete values from the spec. -/
theorem C4_usable_hosts :
    (∀ m b : List Char, validate_subnet_mask m = true → ip_to_binary m = some b →
      calculate_number_of_hosts m
        = some (if b.count '0' = 0 then 0 else 2 ^ (b.count '0') - 2))
    ∧ calculate_number_of_hosts ("255.255.255.0".toList) = some 254
    ∧ calculate_number_of_hosts ("255.255.255.252".toList) = some 2
    ∧ calculate_number_of_hosts ("255.255.255.255".toList) = some 0
    ∧ calculate_number_of_hosts ("255.255.255.254".toList) = some 0 := by
  refine ⟨?_, by decide, by decide, by decide, by decide⟩
  intro m b _ hb
  unfold calculate_number_of_hosts
  rw [hb]

/-- Witness for C4: the theorem applied at mask `255.255.192.0`
(18 one-bits, 14 host bits, `2 ^ 14 - 2 = 16382`). -/
theorem C4_usable_hosts_witness :
    calculate_number_of_hosts ("255.255.192.0".toList) = some 16382 :=
  (C4_usable_hosts.1 ("255.255.192.0".toList)
      ("11111111111111111100000000000000".toList) (by decide) (by decide)).trans (by decide)

/-- C5: for every valid address and valid mask, bit `i` of the network
address (re-encoded to bits) is `'1'` exactly when bit `i` of the
address and bit `i` of the mask are both `'1'` — the position-wise AND —
and the result has 32 bits; concretely
`192.168.1.130 AND 255.255.255.0 = 192.168.1.0`. -/
theorem C5_network_bitwise_and :
    (∀ (ip m ib mb : List Char) (i : Nat), validate_ip ip = true →
      validate_subnet_mask m = true → ip_to_binary ip = some ib →
      ip_to_binary m = some mb → i < 32 →
      ((get_network_address ip m).bind ip_to_binary).map List.length = some 32
      ∧ bitAt ((get_network_address ip m).bind ip_to_binary) i
          = some (if ib.getD i ' ' = '1' ∧ mb.getD i ' ' = '1' then '1' else '0'))
    ∧ get_network_address ("192.168.1.130".toList) ("255.255.255.0".toList)
        = some ("192.168.1.0".toList) := by
  refine ⟨?_, by decide⟩
  intro ip m ib mb i _ _ hib hmb hi
  have hA : (get_network_address ip m).bind ip_to_binary = some (andBits32 ib mb) := by
    rw [get_network_address_some hib hmb]
    exact bits_roundtrip_32 (andBits32_length ib mb) (fun c hc => andBits32_mem hc)
  constructor
  · rw [hA]
    simp [andBits32_length]
  · rw [hA]
    unfold bitAt
    rw [Option.map_some', andBits32_getD hi]
    by_cases h1 : ib.getD i ' ' = '1' <;> by_cases h2 : mb.getD i ' ' = '1' <;>
      simp [h1, h2]

/-- Witness for C5: bit 31 of the network address of
`192.168.1.130 / 255.255.255.0` is `'0'` (the mask bit is `'0'`). -/
theorem C5_network_bitwise_and_witness :
    bitAt ((get_network_address ("192.168.1.130".toList)
        ("255.255.255.0".toList)).bind ip_to_binary) 31 = some '0' :=
  ((C5_network_bitwise_and.1 ("192.168.1.130".toList) ("255.255.255.0".toList)
      ("11000000101010000000000110000010".toList)
      ("11111111111111111111111100000000".toList) 31
      (by decide) (by decide) (by decide) (by decide) (by decide)).2).trans (by decide)

/-- C6: for every valid address and valid mask, bit `i` of the broadcast
address is `'1'` where the mask bit is `'0'` and equals the
network-address bit where the mask bit is `'1'`; equivalently it is
`'1'` iff the network bit is `'1'` or the mask bit is not `'1'`
(network OR (NOT mask)); concretely the broadcast of
`192.168.1.130 / 255.255.255.0` is `192.168.1.255`. -/
theorem C6_broadcast_or_not_mask :
    (∀ (ip m mb nb : List Char) (i : Nat), validate_ip ip = true →
      validate_subnet_mask m = true → ip_to_binary m = some mb →
      (get_network_address ip m).bind ip_to_binary = some nb → i < 32 →
      (bitAt ((get_broadcast_address ip m).bind ip_to_binary) i
          = some (if mb.getD i ' ' = '0' then '1' else nb.getD i ' ')
        ∧ (bitAt ((get_broadcast_address ip m).bind ip_to_binary) i = some '1'
            ↔ (nb.getD i ' ' = '1' ∨ ¬ mb.getD i ' ' = '1'))))
    ∧ get_broadcast_address ("192.168.1.130".toList) ("255.255.255.0".toList)
        = some ("192.168.1.255".toList) := by
  refine ⟨?_, by decide⟩
  intro ip m mb nb i hip hm hmb hnb hi
  have hmv := validate_subnet_mask_validate_ip hm
  obtain ⟨ib, hib, hib32, hibbin⟩ := valid_ip_bits hip
  obtain ⟨mb', hmb', hmb32, hmbbin⟩ := valid_ip_bits hmv
  rw [hmb] at hmb'
  have hmbe : mb = mb' := Option.some.inj hmb'
  rw [← hmbe] at hmb32 hmbbin
  have hA : (get_network_address ip m).bind ip_to_binary = some (andBits32 ib mb) := by
    rw [get_network_address_some hib hmb]
    exact bits_roundtrip_32 (andBits32_length ib mb) (fun c hc => andBits32_mem hc)
  have hnbe : nb = andBits32 ib mb := by
    rw [hA] at hnb
    exact (Option.some.inj hnb).symm
  subst hnbe
  obtain ⟨na, hna, hna2⟩ := Option.bind_eq_some.mp hA
  have hbc := get_broadcast_address_some hna hna2 hmb
  have hB : (get_broadcast_address ip m).bind ip_to_binary
      = some (orNotBits32 (andBits32 ib mb) mb) := by
    rw [hbc]
    exact bits_roundtrip_32 (orNotBits32_length _ _)
      (fun c hc => orNotBits32_mem (andBits32_length ib mb)
        (fun x hx => andBits32_mem hx) hc)
  have hmbbit : mb.getD i ' ' = '0' ∨ mb.getD i ' ' = '1' :=
    hmbbin _ (getD_mem (by omega))
  constructor
  · rw [hB]
    unfold bitAt
    rw [Option.map_some', orNotBits32_getD hi]
    rcases hmbbit with h0 | h1
    · simp [h0]
    · rw [h1]
      have hc1 : (('1' : Char) == '0') = false := by decide
      have hc2 : ¬(('1' : Char) = '0') := by decide
      simp [hc1, hc2]
  · rw [hB]
    unfold bitAt
    rw [Option.map_some', orNotBits32_getD hi]
    rcases hmbbit with h0 | h1
    · rw [h0]
      have hc1 : (('0' : Char) == '0') = true := by decide
      have hc2 : ¬(('0' : Char) = '1') := by decide
      simp [hc1, hc2]
    · rw [h1]
      have hc1 : (('1' : Char) == '0') = false := by decide
      simp [hc1]

/-- Witness for C6: bit 31 of the broadcast of
`192.168.1.130 / 255.255.255.0` is `'1'` (host bit forced to one). -/
theorem C6_broadcast_or_not_mask_witness :
    bitAt ((get_broadcast_address ("192.168.1.130".toList)
        ("255.255.255.0".toList)).bind ip_to_binary) 31 = some '1' :=
  ((C6_broadcast_or_not_mask.1 ("192.168.1.130".toList) ("255.255.255.0".toList)
      ("11111111111111111111111100000000".toList)
      ("11000000101010000000000100000000".toList) 31
      (by decide) (by decide) (by decide) (by decide) (by decide)).1).trans (by decide)

/-- C7: for every mask that has passed the shape check, the CIDR prefix
(`get_cidr_notation` in the source) is the count of `'1'` characters in
the 32-bit rendering and is at most 32; concretely 24, 32 and 0 for the
three example masks. -/
theorem C7_cidr_count :
    (∀ m b : List Char, validate_subnet_mask m = true → ip_to_binary m = some b →
      get_cidr m = some (b.count '1') ∧ b.count '1' ≤ 32)
    ∧ get_cidr ("255.255.255.0".toList) = some 24
    ∧ get_cidr ("255.255.255.255".toList) = some 32
    ∧ get_cidr ("0.0.0.0".toList) = some 0 := by
  refine ⟨?_, by decide, by decide, by decide⟩
  intro m b hm hb
  have hmv := validate_subnet_mask_validate_ip hm
  obtain ⟨b', hb', h32, _⟩ := valid_ip_bits hmv
  rw [hb] at hb'
  have hbb : b = b' := Option.some.inj hb'
  rw [← hbb] at h32
  constructor
  · unfold get_cidr
    rw [hb]
  · calc b.count '1' ≤ b.length := List.count_le_length '1' b
      _ = 32 := h32

/-- Witness for C7: the theorem applied at mask `255.255.240.0`
(20 one-bits). -/
theorem C7_cidr_count_witness :
    get_cidr ("255.255.240.0".toList) = some 20 :=
  (C7_cidr_count.1 ("255.255.240.0".toList)
      ("11111111111111111111000000000000".toList) (by decide) (by decide)).1.trans (by decide)

/-- C8: for every valid address, `get_ip_class` depends only on the
decimal value of the first `'.'`-separated part and follows the
classification table 1–126 → A, 128–191 → B, 192–223 → C, else
unclassified (`None` in the source), with the four concrete examples. -/
theorem C8_classification :
    (∀ (s : List Char) (v : Int), validate_ip s = true →
      pyInt? ((splitOnChar '.' s).headD []) = some v →
      get_ip_class s = some (specClassOfFirstOctet v))
    ∧ get_ip_class ("10.0.0.1".toList) = some (some IpClass.A)
    ∧ get_ip_class ("172.16.0.1".toList) = some (some IpClass.B)
    ∧ get_ip_class ("192.168.1.1".toList) = some (some IpClass.C)
    ∧ get_ip_class ("127.0.0.1".toList) = some none := by
  refine ⟨?_, by decide, by decide, by decide, by decide⟩
  intro s v _ hv
  unfold get_ip_class specClassOfFirstOctet
  rw [hv]

/-- Witness for C8: the theorem applied at `172.16.0.1`, whose first
octet 172 lies in the class-B range. -/
theorem C8_classification_witness :
    get_ip_class ("172.16.0.1".toList) = some (some IpClass.B) :=
  (C8_classification.1 ("172.16.0.1".toList) 172 (by decide) (by decide)).trans (by decide)

/-- C9: for every valid address and valid mask, `is_classful` returns
`(false, "Classless")` when the class is unclassified, and otherwise
compares the class's default CIDR prefix (via `get_default_mask_cidr`,
A→8, B→16, C→24) with the mask's CIDR count, returning
`(true, "Class <X>")` on equality and `(false, "Classless")` otherwise;
with the spec's two concrete examples. -/
theorem C9_is_classful :
    (∀ (ip m : List Char) (c : Option IpClass) (k : Nat), validate_ip ip = true →
      validate_subnet_mask m = true → get_ip_class ip = some c → get_cidr m = some k →
      is_classful ip m = some (match c with
        | none => (false, "Classless".toList)
        | some cl =>
          if (some k : Option Nat) = get_default_mask_cidr (some cl)
          then (true, "Class ".toList ++ [classChar cl])
          else (false, "Classless".toList)))
    ∧ get_default_mask_cidr (some IpClass.A) = some 8
    ∧ get_default_mask_cidr (some IpClass.B) = some 16
    ∧ get_default_mask_cidr (some IpClass.C) = some 24
    ∧ is_classful ("10.0.0.1".toList) ("255.0.0.0".toList) = some (true, "Class A".toList)
    ∧ is_classful ("10.0.0.1".toList) ("255.255.255.0".toList)
        = some (false, "Classless".toList) := by
  refine ⟨?_, rfl, rfl, rfl, by decide, by decide⟩
  intro ip m c k _ _ hc hk
  cases c with
  | none =>
    unfold is_classful
    rw [hc]
  | some cl =>
    unfold is_classful
    rw [hc]
    show (match get_cidr m with
      | none => none
      | some k =>
        if (some k : Option Nat) = get_default_mask_cidr (some cl)
        then some (true, "Class ".toList ++ [classChar cl])
        else some (false, "Classless".toList)) = _
    rw [hk]
    show (if (some k : Option Nat) = get_default_mask_cidr (some cl)
        then some ((true, "Class ".toList ++ [classChar cl]))
        else some ((false, "Classless".toList)))
      = some (if (some k : Option Nat) = get_default_mask_cidr (some cl)
        then (true, "Class ".toList ++ [classChar cl])
        else (false, "Classless".toList))
    by_cases hEq : (some k : Option Nat) = get_default_mask_cidr (some cl)
    · rw [if_pos hEq, if_pos hEq]
    · rw [if_neg hEq, if_neg hEq]

/-- Witness for C9: the theorem applied at `192.168.1.1` with mask
`255.255.255.0` (class C, default prefix 24, mask prefix 24). -/
theorem C9_is_classful_witness :
    is_classful ("192.168.1.1".toList) ("255.255.255.0".toList)
      = some (true, "Class C".toList) :=
  (C9_is_classful.1 ("192.168.1.1".toList) ("255.255.255.0".toList)
      (some IpClass.C) 24 (by decide) (by decide) (by decide) (by decide)).trans (by decide)

/-- C10 (implicit): the network-address computation is idempotent in its
address argument — for every syntactically valid address and shape-valid
mask, applying `get_network_address` to its own result under the same
mask returns the same address. -/
theorem C10_network_idempotent :
    ∀ ip m r : List Char, validate_ip ip = true → validate_subnet_mask m = true →
      get_network_address ip m = some r → get_network_address r m = some r := by
  intro ip m r hip hm hr
  have hmv := validate_subnet_mask_validate_ip hm
  obtain ⟨ib, hib, hib32, hibbin⟩ := valid_ip_bits hip
  obtain ⟨mb, hmb, hmb32, hmbbin⟩ := valid_ip_bits hmv
  have hnet := get_network_address_some hib hmb
  have hA32 := andBits32_length ib mb
  have hAbin : ∀ c ∈ andBits32 ib mb, c = '0' ∨ c = '1' := fun c hc => andBits32_mem hc
  have hround := bits_roundtrip_32 hA32 hAbin
  have hbr : binary_to_ip (andBits32 ib mb) = some r := by rw [← hnet]; exact hr
  have hipr : ip_to_binary r = some (andBits32 ib mb) := by
    rw [hbr, Option.some_bind] at hround
    exact hround
  have hnet2 := get_network_address_some hipr hmb
  have hidem : andBits32 (andBits32 ib mb) mb = andBits32 ib mb := by
    apply List.ext_getElem (by rw [andBits32_length, andBits32_length])
    intro i h1 h2
    have hi : i < 32 := by
      have := andBits32_length (andBits32 ib mb) mb
      omega
    rw [getElem_eq_getD h1, getElem_eq_getD h2, andBits32_getD hi, andBits32_getD hi]
    have e1 : (('1' : Char) == '1') = true := by decide
    have e0 : (('0' : Char) == '1') = false := by decide
    rcases Bool.eq_false_or_eq_true (ib.getD i ' ' == '1') with hx | hx <;>
      rcases Bool.eq_false_or_eq_true (mb.getD i ' ' == '1') with hy | hy <;>
        simp [hx, hy, e1, e0]
  rw [hnet2, hidem]
  exact hbr

/-- Witness for C10: the theorem applied at `192.168.1.130` with mask
`255.255.255.0`, whose network address `192.168.1.0` maps to itself. -/
theorem C10_network_idempotent_witness :
    get_network_address ("192.168.1.0".toList) ("255.255.255.0".toList)
      = some ("192.168.1.0".toList) :=
  C10_network_idempotent ("192.168.1.130".toList) ("255.255.255.0".toList)
    ("192.168.1.0".toList) (by decide) (by decide) (by decide)
